import Mathlib

/-!
Shallow embedding of the giga-osint retrieval core, translated from the
Python sources:

* `src/index/raptor/utils.py`   (`choose_k`)
* `src/retrieve/temporal.py`    (`parse_ts`, `temporal_weight`)
* `src/index/graph/graph_store.py` (`GraphStore.add_chunk`, `GraphStore.doc_boosts`)
* `src/retrieve/rerank.py`      (`rerank`)
* `src/retrieve/hybrid.py`      (`hybrid_search` and its candidate helpers)
* `src/index/raptor/builder.py` (`RaptorBuilder.build_nodes`, `_summarize_node`)

Modelling conventions:

* Python `dict`s are insertion-ordered association lists; `d[k] = v`
  updates an existing key in place and appends a fresh key at the end.
* Python floats are idealized as exact rationals (`ℚ`) in all score
  plumbing; the transcendental formulas (`math.exp`, `math.log1p`) are
  modelled over `ℝ`.
* External services (embedder, cross-encoder, kmeans, uuid, wall clock,
  the dateutil ISO parser, the NER extractor and the ambient singleton
  stores) enter as explicit oracle parameters; a raising call is an
  `Except.error`.
* A Python function that can raise only inside a caught `try` is a total
  Lean function; exception paths that the code catches are modelled by
  the corresponding fallback value.
-/

/-- Insertion-ordered association-list lookup (Python `dict.get`). -/
def alGet {K V : Type} [DecidableEq K] : List (K × V) → K → Option V
  | [], _ => none
  | (k', v') :: t, k => if k = k' then some v' else alGet t k

/-- Insertion-ordered association-list assignment (Python `d[k] = v`):
an existing key keeps its position, a new key is appended at the end. -/
def alSet {K V : Type} [DecidableEq K] : List (K × V) → K → V → List (K × V)
  | [], k, v => [(k, v)]
  | (k', v') :: t, k, v => if k = k' then (k, v) :: t else (k', v') :: alSet t k v

/-- Association-list key removal (Python `d.pop(k, None)`). -/
def alErase {K V : Type} [DecidableEq K] : List (K × V) → K → List (K × V)
  | [], _ => []
  | (k', v') :: t, k => if k = k' then t else (k', v') :: alErase t k

/-- Values stored in a Python metadata dict: strings, numbers (floats as
exact rationals), integers, and booleans. -/
inductive MVal : Type
  | s (v : String)
  | q (v : ℚ)
  | n (v : ℤ)
  | b (v : Bool)
deriving DecidableEq

/-- A Python metadata dict, as an insertion-ordered association list. -/
abbrev Meta : Type := List (String × MVal)

/-- Read a metadata key as a truthy string: a missing key, a non-string
value, or the empty string count as Python-falsy and give `none`. -/
def metaStr (m : Meta) (k : String) : Option String :=
  match alGet m k with
  | some (MVal.s v) => if v = "" then none else some v
  | _ => none

/-- Read a metadata key as a rational, with a default (Python
`meta.get(k, default)` where the stored value is a float). -/
def metaQ (m : Meta) (k : String) (dflt : ℚ) : ℚ :=
  match alGet m k with
  | some (MVal.q v) => v
  | _ => dflt

/-! ### `choose_k` — src/index/raptor/utils.py lines 6-9 -/

/-- Python `round`: round-half-to-even, halves go to the even neighbour
(`round(2.5) == 2`, `round(3.5) == 4`); other values round to nearest. -/
def pyRound (x : ℚ) : ℤ :=
  if x - ⌊x⌋ = 1/2 then (if Even ⌊x⌋ then ⌊x⌋ else ⌊x⌋ + 1) else round x

/-- `choose_k(n_points, target_sz, k_max)`: 1 for small inputs, otherwise
`int(round(n_points / max(5, target_sz)))` clamped to `[1, k_max]`
(`max(1, min(k, k_max))`). True division is modelled exactly over `ℚ`. -/
def choose_k (n_points : ℤ) (target_sz : ℤ) (k_max : ℤ) : ℤ :=
  if n_points ≤ target_sz then 1
  else max 1 (min (pyRound ((n_points : ℚ) / (max 5 (target_sz : ℚ)))) k_max)

/-! ### Temporal decay — src/retrieve/temporal.py -/

/-- `parse_ts(val)`, with the dateutil `isoparse` as an oracle
`iso : String → Option ℝ` returning the parsed timestamp as UTC epoch
seconds (a tz-naive result is already coerced to UTC by the caller via
`ts.replace(tzinfo=timezone.utc)`, folded into the oracle). A missing
value, an empty string (Python-falsy) and every non-string value yield
`none`: falsy non-strings return early and truthy non-strings make
`isoparse` raise `TypeError`, which the `except` swallows into `None`. -/
def parse_ts (iso : String → Option ℝ) (val : Option MVal) : Option ℝ :=
  match val with
  | some (MVal.s v) => if v = "" then none else iso v
  | _ => none

open Classical in
/-- The clamped decay formula of `temporal_weight` lines 30-31:
`max(0.2, min(1.5, exp(-days / horizon) * (1.2 if days <= 2 else 1.0)))`. -/
noncomputable def decay_weight (days horizon : ℝ) : ℝ :=
  max 0.2 (min 1.5 (Real.exp (-days / horizon) * (if days ≤ 2 then 1.2 else 1.0)))

/-- `temporal_weight(meta, query_text, default_days)` lines 15-31.
`now` is the wall clock (`datetime.now(timezone.utc)`) in epoch seconds;
`recentHit` is the outcome of `_recent_re.search(query_text)` (the
compiled-regex engine treated as an external); `iso` is the ISO-parse
oracle. An unknown timestamp gives weight `1.0`. -/
noncomputable def temporal_weight (iso : String → Option ℝ) (now : ℝ)
    (meta : Meta) (recentHit : Bool) (default_days : ℝ) : ℝ :=
  match parse_ts iso (alGet meta "published_at") with
  | none => 1.0
  | some ts =>
      let days := (now - ts) / 86400
      let horizon := max 3 (default_days * (if recentHit then 0.5 else 1.0))
      decay_weight days horizon

/-! ### Knowledge graph store — src/index/graph/graph_store.py -/

/-- The attribute record of a networkx node as used by `GraphStore`: the
`kind` attribute and the mention `count` (absent on doc nodes, which is
what `get("count", 0)` would see, so it is stored as 0 there). -/
structure GNode : Type where
  kind : String
  count : ℤ
deriving DecidableEq

/-- The networkx `Graph` owned by `GraphStore`: insertion-ordered node
map plus an undirected edge map keyed by the canonically sorted pair of
endpoint names, each edge carrying its `w` attribute. -/
structure Graph : Type where
  nodes : List (String × GNode)
  edges : List ((String × String) × ℤ)
deriving DecidableEq

/-- Canonical (sorted) key of an undirected networkx edge. -/
def keyOf (a b : String) : String × String :=
  if a ≤ b then (a, b) else (b, a)

/-- Edge-weight lookup: the `w` attribute of edge `{a, b}`, if present. -/
def Graph.getW (G : Graph) (a b : String) : Option ℤ :=
  alGet G.edges (keyOf a b)

/-- Edge weight with default 0 (absent edge reads as weight 0). -/
def Graph.wD (G : Graph) (a b : String) : ℤ :=
  (G.getW a b).getD 0

/-- `add_edge(a, b, w := w)`: set the `w` attribute of undirected edge
`{a, b}`, creating the edge if needed. -/
def Graph.setW (G : Graph) (a b : String) (w : ℤ) : Graph :=
  { G with edges := alSet G.edges (keyOf a b) w }

/-- Node lookup (`G.has_node` / `G.nodes[n]`). -/
def Graph.getNode (G : Graph) (n : String) : Option GNode :=
  alGet G.nodes n

/-- Mention count of a node, 0 when the node (or its attribute) is absent. -/
def Graph.countD (G : Graph) (n : String) : ℤ :=
  ((G.getNode n).map GNode.count).getD 0

/-- Lines 29-32 of `add_chunk`, for one entity: ensure the node exists
(created with `kind="entity", count=0`) and increment its `count`. -/
def Graph.bumpEntity (G : Graph) (e : String) : Graph :=
  match G.getNode e with
  | some nd => { G with nodes := alSet G.nodes e { nd with count := nd.count + 1 } }
  | none => { G with nodes := alSet G.nodes e ⟨"entity", 1⟩ }

/-- The ordered index pairs `(entities[i], entities[j])`, `i < j`, of the
co-mention double loop (lines 35-39). -/
def pairsOf {α : Type} : List α → List (α × α)
  | [] => []
  | x :: xs => (xs.map fun y => (x, y)) ++ pairsOf xs

/-- One co-mention bump: `w = G.edges[a,b]["w"] + 1 if has_edge else 1`
followed by `add_edge(a, b, w=w)` (the pair is canonically sorted, as
`sorted((entities[i], entities[j]))` does). -/
def Graph.bumpPair (G : Graph) (p : String × String) : Graph :=
  match G.getW p.1 p.2 with
  | some w => G.setW p.1 p.2 (w + 1)
  | none => G.setW p.1 p.2 1

/-- The document id used for the provenance node:
`meta.get("doc_id") or meta.get("url")` (falsy values fall through). -/
def docOf (meta : Meta) : Option String :=
  match metaStr meta "doc_id" with
  | some d => some d
  | none => metaStr meta "url"

/-- Lines 41-48 of `add_chunk`: create the `doc::`-prefixed document node
if absent and link it to every entity with `add_edge(dnode, e, w=1)`
(which overwrites any existing `w` attribute with 1). -/
def Graph.linkDoc (G : Graph) (entities : List String) (meta : Meta) : Graph :=
  match docOf meta with
  | none => G
  | some doc =>
      let dnode := "doc::" ++ doc
      let G1 : Graph :=
        match G.getNode dnode with
        | some _ => G
        | none => { G with nodes := alSet G.nodes dnode ⟨"doc", 0⟩ }
      entities.foldl (fun g e => g.setW dnode e 1) G1

/-- `GraphStore.add_chunk(chunk_id, entities, meta)` lines 26-48.
`chunk_id` is unused by the body, exactly as in the source. -/
def add_chunk (G : Graph) (chunk_id : String) (entities : List String)
    (meta : Meta) : Graph :=
  let _ := chunk_id
  let G1 := entities.foldl Graph.bumpEntity G
  let G2 := (pairsOf entities).foldl Graph.bumpPair G1
  G2.linkDoc entities meta

/-! ### `doc_boosts` — src/index/graph/graph_store.py lines 137-162 -/

/-- The neighbours of a node in the undirected edge map (networkx
adjacency). With canonically keyed, duplicate-free edges every
neighbour appears once, matching networkx. -/
def Graph.neighbors (G : Graph) (n : String) : List String :=
  G.edges.filterMap fun e =>
    if e.1.1 = n then some e.1.2 else if e.1.2 = n then some e.1.1 else none

/-- The hit count of a document node: how many of its neighbours are
entity nodes contained in the query-entity set (lines 150-153). -/
def Graph.hitsOf (G : Graph) (query_entities : List String) (n : String) : ℕ :=
  (G.neighbors n).countP fun nb =>
    (match G.getNode nb with
     | some nd => nd.kind = "entity"
     | none => false)
    && query_entities.contains nb

/-- The boost formula of line 158: `1.0 + math.log1p(hits)`. -/
noncomputable def boostVal (hits : ℕ) : ℝ :=
  1 + Real.log (1 + (hits : ℝ))

/-- `doc_node.split("doc::", 1)[1]`: everything after the first
occurrence of `"doc::"` (reachable doc nodes always carry the prefix;
on a name without the separator the source would raise `IndexError`,
modelled as the empty string). -/
def docIdOfNode (name : String) : String :=
  String.intercalate "doc::" ((name.splitOn "doc::").drop 1)

open Classical in
/-- `GraphStore.doc_boosts(query_entities, k)` lines 137-162: empty
query-entity list short-circuits to `{}`; otherwise every doc-kind node
with a positive hit count contributes `boosts[doc_id] = 1 + log1p(hits)`
(dict insertion order); if more than `k` entries accumulate, keep the
`k` largest by value (the stable Python `sorted` with `reverse=True`). -/
noncomputable def doc_boosts (G : Graph) (query_entities : List String)
    (k : ℕ) : List (String × ℝ) :=
  if query_entities = [] then [] else
  let boosts := G.nodes.foldl
    (fun acc nd =>
      if nd.2.kind = "doc" then
        let hits := G.hitsOf query_entities nd.1
        if 0 < hits then alSet acc (docIdOfNode nd.1) (boostVal hits) else acc
      else acc) []
  if k < boosts.length then
    (List.insertionSort (fun a b : String × ℝ => b.2 ≤ a.2) boosts).take k
  else boosts

/-! ### Reranker — src/retrieve/rerank.py -/

/-- A scored candidate `(id, text, meta, score)` as returned by `rerank`. -/
abbrev Ranked : Type := String × String × Meta × ℚ

/-- The stable Python `list.sort` / `sorted` with a key and `reverse=True`:
insertion sort on the key, descending, ties keeping the
original order. -/
def sortDescBy {α : Type} (key : α → ℚ) (l : List α) : List α :=
  List.insertionSort (fun a b => key b ≤ key a) l

/-- The in-place `(c[2] or {}).update({"_rerank_fallback": "embed"})` of
lines 47-48 / 51-52: a non-empty meta dict gains the degradation flag;
an empty dict is Python-falsy, so the update lands on a fresh `{}`
literal and is lost. -/
def markFallback (m : Meta) : Meta :=
  if m = [] then m else alSet m "_rerank_fallback" (MVal.s "embed")

/-- Line 53: `[(c[0], c[1], c[2], float(s)) for c, s in zip(candidates, scores)]`
(a short score list truncates, as `zip` does). -/
def zipScores (cands : List (String × String × Meta)) (scores : List ℚ) :
    List Ranked :=
  (cands.zip scores).map fun cs => (cs.1.1, cs.1.2.1, cs.1.2.2, cs.2)

/-- `rerank(query, candidates)` lines 30-55, as a state machine over the
module global `_USE_CE`. `ce` is the cross-encoder oracle
(`_ce_scores`: the whole call may raise), `embScore` is the
embedding-cosine oracle behind `_embed_scores` (one score per text, per
the embedder contract). Returns the new `_USE_CE` state and the scored
list, sorted by score descending. -/
def rerank (useCE : Bool) (ce : Except Unit (List ℚ)) (embScore : String → ℚ)
    (query : String) (candidates : List (String × String × Meta)) :
    Bool × List Ranked :=
  let _ := query
  if candidates = [] then (useCE, []) else
  let texts := candidates.map fun c => c.2.1
  if useCE then
    match ce with
    | Except.ok scores => (true, sortDescBy (fun r => r.2.2.2) (zipScores candidates scores))
    | Except.error _ =>
        let scores := texts.map embScore
        let marked := candidates.map fun c => (c.1, c.2.1, markFallback c.2.2)
        (false, sortDescBy (fun r => r.2.2.2) (zipScores marked scores))
  else
    let scores := texts.map embScore
    let marked := candidates.map fun c => (c.1, c.2.1, markFallback c.2.2)
    (false, sortDescBy (fun r => r.2.2.2) (zipScores marked scores))

/-! ### Hybrid ranker — src/retrieve/hybrid.py -/

/-- One candidate record of the `vec` dict:
`{"text": ..., "meta": ..., "score_v": ..., "score_b": ..., "score_g": ...}`. -/
structure CandData : Type where
  text : String
  meta : Meta
  score_v : ℚ
  score_b : ℚ
  score_g : ℚ
deriving DecidableEq

/-- A final hit of `hybrid_search` (lines 85-90). -/
structure Hit : Type where
  id : String
  text : String
  meta : Meta
  score : ℚ
deriving DecidableEq

/-- The ambient inputs of one `hybrid_search` call: the singleton vector
store, BM25 index, settings, NER extractor, graph-store state,
cross-encoder state and wall clock, observed at call time. Observed
float values are exact rationals. -/
structure HybridEnv : Type where
  /-- Rows `(id, document or "", metadata or {})` of `store.query` as
  unpacked by `_vector_candidates` (lines 12-21). -/
  vecRows : List (String × String × Meta)
  /-- Rows `(id, document or "", metadata or {})` returned by
  `_bm25_candidates` (lines 23-32). -/
  bmRows : List (String × String × Meta)
  /-- `settings.use_graph_bias`. -/
  useGraphBias : Bool
  /-- `graph_store.doc_boosts(extract_entities(q) or [], k=300)` observed
  from the graph-store singleton (line 46). -/
  boosts : List (String × ℚ)
  /-- `temporal_weight(meta, q, default_days=settings.default_recent_days)`
  observed at the wall-clock instant of the call (line 63). -/
  tempW : Meta → ℚ
  /-- The module global `_USE_CE` of `retrieve.rerank` at call time. -/
  useCE : Bool
  /-- The cross-encoder scoring oracle for this call. -/
  ce : Except Unit (List ℚ)
  /-- The embedding-cosine oracle for this call. -/
  embScore : String → ℚ
  /-- `best_snippet(q, text)` (lines 78-82; depends on the external
  embedder): returns `(snippet, start, end)`. -/
  snippet : String → String → String × ℤ × ℤ

/-- `_vector_candidates` (lines 12-21): seed the `vec` dict, keyed by
chunk id, each entry `score_v=1.0, score_b=0.0, score_g=0.0`. -/
def vectorCandidates (rows : List (String × String × Meta)) :
    List (String × CandData) :=
  rows.foldl (fun acc r => alSet acc r.1 ⟨r.2.1, r.2.2, 1, 0, 0⟩) []

/-- Lines 37-41: merge BM25 rows into the `vec` dict — an id already
present gains `score_b += 1.0`, a new id is inserted with
`score_v=0.0, score_b=1.0`. -/
def mergeBm25 (vec : List (String × CandData))
    (rows : List (String × String × Meta)) : List (String × CandData) :=
  rows.foldl
    (fun acc r =>
      match alGet acc r.1 with
      | some d => alSet acc r.1 { d with score_b := d.score_b + 1 }
      | none => alSet acc r.1 ⟨r.2.1, r.2.2, 0, 1, 0⟩)
    vec

/-- Lines 44-50: graph bias — a candidate whose truthy `doc_id` is in the
boost map gains `score_g += boosts[doc_id]`. -/
def applyGraphBias (boosts : List (String × ℚ))
    (vec : List (String × CandData)) : List (String × CandData) :=
  vec.map fun c =>
    match metaStr c.2.meta "doc_id" with
    | some d =>
        match alGet boosts d with
        | some b => (c.1, { c.2 with score_g := c.2.score_g + b })
        | none => c
    | none => c

/-- `hybrid_search(q, k)` lines 34-91. The 0.8 graph coefficient and the
`1.0 + min(1.0, score_g)` cap are exact rationals. -/
def hybrid_search (env : HybridEnv) (q : String) (k : ℕ) : List Hit :=
  let vec0 := vectorCandidates env.vecRows
  let vec1 := mergeBm25 vec0 env.bmRows
  let vec2 := if env.useGraphBias then applyGraphBias env.boosts vec1 else vec1
  let prelim := (sortDescBy
    (fun c : String × CandData => c.2.score_v + c.2.score_b + 0.8 * c.2.score_g)
    vec2).take 80
  let cands : List (String × String × Meta) := prelim.map fun c =>
    let meta1 := alSet c.2.meta "_temp_w" (MVal.q (env.tempW c.2.meta))
    let meta2 := alSet meta1 "_graph_w" (MVal.q (1 + min 1 c.2.score_g))
    (c.1, c.2.text, meta2)
  let ranked := (rerank env.useCE env.ce env.embScore q cands).2
  let final := (sortDescBy
    (fun r : Ranked => r.2.2.2 * metaQ r.2.2.1 "_temp_w" 1 * metaQ r.2.2.1 "_graph_w" 1)
    ranked).take k
  final.map fun r =>
    let se := env.snippet q r.2.1
    let m1 := alSet r.2.2.1 "snippet" (MVal.s se.1)
    let m2 := alSet m1 "snippet_start" (MVal.n se.2.1)
    let m3 := alSet m2 "snippet_end" (MVal.n se.2.2)
    let m4 := alErase (alErase m3 "_temp_w") "_graph_w"
    ⟨r.1, r.2.1, m4, r.2.2.2⟩

/-! ### RAPTOR builder — src/index/raptor/builder.py -/

/-- One entry of the node collection: id ↦ (document text, embedding,
metadata), as stored by `ChromaStore.upsert`. -/
abbrev NodeColl : Type := List (String × String × List ℚ × Meta)

/-- `ChromaStore.upsert(ids, texts, embeddings, metadatas)` on the node
collection: insert-or-replace by id. -/
def collUpsert (st : NodeColl) (entries : List (String × String × List ℚ × Meta)) :
    NodeColl :=
  entries.foldl (fun s e => alSet s e.1 e.2) st

/-- The incremental short-circuit condition of `build_nodes` lines 72-87:
`existing_node_count > 0 and (expected_nodes - existing_node_count) <
growth_threshold`, with `expected_nodes = max(1, current_chunk_count // 50)`
and `growth_threshold = max(5, existing_node_count * 0.25)` (the float
`0.25` is exact, so the mixed int/float comparison is the exact rational
one). A `true` result skips the rebuild. -/
def incrementalSkip (existing_node_count current_chunk_count : ℕ) : Bool :=
  0 < existing_node_count &&
    (((max 1 (current_chunk_count / 50) : ℕ) : ℚ) - (existing_node_count : ℚ)
      < max 5 ((existing_node_count : ℚ) * 0.25))

/-- The host-set accumulation of `_summarize_node` lines 35-39: hosts of
the first 8 sources, truthy and deduplicated. Python iterates the
resulting `set` in unspecified hash order; first-insertion order is one
admissible order and is used here. -/
def uniqueHosts (sources : List Meta) : List String :=
  (sources.take 8).foldl
    (fun acc s =>
      match metaStr s "host" with
      | some h => if acc.contains h then acc else acc ++ [h]
      | none => acc)
    []

/-- Truncation of one selected chunk, lines 45-50:
`chunk[:200].strip()` plus an ellipsis when the chunk was longer. -/
def truncChunk (chunk : String) : String :=
  (chunk.take 200).trim ++ (if 200 < chunk.length then "..." else "")

/-- `_summarize_node(topic, texts, sources)` lines 16-53: extractive
summary — topic line, source-host line, then the (up to) 5 longest
chunks, numbered and truncated, joined by blank lines. `sorted(texts,
key=len, reverse=True)` is the stable descending Python sort. -/
def summarizeNode (topic : String) (texts : List String) (sources : List Meta) :
    String :=
  let sorted_texts := List.insertionSort
    (fun a b : String => b.length ≤ a.length) texts
  let selected := sorted_texts.take (min 5 sorted_texts.length)
  let parts0 : List String := if topic ≠ "" then ["Topic: " ++ topic] else []
  let hosts := uniqueHosts sources
  let parts1 := parts0 ++
    (if hosts ≠ [] then ["Sources: " ++ String.intercalate ", " (hosts.take 5)] else [])
  let parts2 := parts1 ++ (selected.enum.map fun ti =>
    "[" ++ toString (ti.1 + 1) ++ "] " ++ truncChunk ti.2)
  String.intercalate "\n\n" parts2

/-- The provenance record of lines 168-175: the five metadata keys kept
for each of the first 8 sources (a key absent from the source meta stays
absent, standing for the Python `None`). -/
def srcRecord (s : Meta) : Meta :=
  (["url", "host", "title", "published_at", "doc_id"].filterMap fun key =>
    (alGet s key).map fun v => (key, v))

/-- Line 180: join the host:title renderings of the first 5 provenance
records with semicolons, defaulting to unknown / untitled. -/
def sourcesSummary (srcs : List Meta) : String :=
  String.intercalate "; " ((srcs.take 5).map fun s =>
    ((metaStr s "host").getD "unknown") ++ ":" ++ ((metaStr s "title").getD "untitled"))

/-- The `groups` dict of lines 144-149: chunks grouped by cluster label,
`setdefault` keeping first-occurrence label order and appending each
text and meta of each chunk. `zip(chunk_texts, chunk_metas, labels)` truncates
to the shortest input. -/
def groupByLabel (rows : List ((String × Meta) × ℤ)) :
    List (ℤ × (List String × List Meta)) :=
  rows.foldl
    (fun acc r =>
      match alGet acc r.2 with
      | some g => alSet acc r.2 (g.1 ++ [r.1.1], g.2 ++ [r.1.2])
      | none => alSet acc r.2 ([r.1.1], [r.1.2]))
    []

/-- The external collaborators and ambient state of one
`RaptorBuilder.build_nodes` call. -/
structure BuildEnv : Type where
  /-- The main chunk collection, as rows `(id, document, metadata)`;
  `fetch_all(limit=n)` returns its first `n` rows. -/
  corpus : List (String × String × Meta)
  /-- `embed_texts` over the selected chunk texts (line 125); may raise. -/
  embedChunks : List String → Except Unit (List (List ℚ))
  /-- `kmeans_labels(embs, k)` (line 137); may raise. -/
  kmeans : List (List ℚ) → ℤ → Except Unit (List ℤ)
  /-- `embed_texts([summary])[0]` for one node summary (line 193); a
  raise here is caught by the per-cluster `try` and skips the cluster. -/
  embedOne : String → Except Unit (List ℚ)
  /-- `uuid.uuid4().hex` for the i-th processed cluster (line 163). -/
  uuidHex : ℕ → String
  /-- `_now_iso()` (line 14). -/
  nowIso : String

/-- The per-cluster loop of lines 157-198: each group yields a node
`(id, summary, embedding, metadata)` unless its summary embedding
raises, in which case the `except` clause `continue`s. -/
def buildGroupNodes (env : BuildEnv) (topic_hint : String) (incremental : Bool)
    (groups : List (ℤ × (List String × List Meta))) :
    List (String × String × List ℚ × Meta) :=
  groups.enum.foldl
    (fun acc gi =>
      let bundle := gi.2.2
      let srcs := bundle.2
      let topic := if topic_hint ≠ "" then topic_hint else "osint"
      let summary := summarizeNode topic bundle.1 srcs
      let nid := "node::" ++ env.uuidHex gi.1
      let src_meta := (srcs.take 8).map srcRecord
      let nodeMeta : Meta :=
        [("kind", MVal.s "raptor_node"),
         ("built_at", MVal.s env.nowIso),
         ("k_group", MVal.n gi.2.1),
         ("topic_hint", MVal.s topic_hint),
         ("sources_summary", MVal.s (sourcesSummary src_meta)),
         ("source_count", MVal.n src_meta.length),
         ("incremental_build", MVal.b incremental)]
      match env.embedOne summary with
      | Except.error _ => acc
      | Except.ok emb => acc ++ [(nid, summary, emb, nodeMeta)])
    []

/-- `RaptorBuilder.build_nodes(topic_hint, min_docs, max_docs, incremental)`
lines 60-208, as a function from the node-collection state to the
node-collection state. The incremental short-circuit, the `< 60`-length
filter, the 500-chunk cap, the abort-on-embedding-failure and
abort-on-clustering-failure paths, the per-cluster `try/continue`, and
the final `reset()`-then-`upsert` (incremental only, and only when at
least one node was produced) are all modelled; `min_docs` only gates a
warning print in the source and has no effect on the result. -/
def build_nodes (env : BuildEnv) (st : NodeColl) (topic_hint : String)
    (min_docs max_docs : ℕ) (incremental : Bool) : NodeColl :=
  let _ := min_docs
  let skip : Bool :=
    incremental &&
      incrementalSkip (st.take 1000).length (env.corpus.take max_docs).length
  if skip then st else
  let data := env.corpus.take max_docs
  let items := data.filter fun r => r.2.1 ≠ "" && 60 < r.2.1.length
  let chunk_texts := items.map fun r => r.2.1
  let chunk_metas := items.map fun r => r.2.2
  if chunk_texts = [] then st else
  let chunk_texts := if 500 < chunk_texts.length then chunk_texts.take 500 else chunk_texts
  let chunk_metas := if 500 < chunk_metas.length then chunk_metas.take 500 else chunk_metas
  match env.embedChunks chunk_texts with
  | Except.error _ => st
  | Except.ok embs =>
      let k := choose_k chunk_texts.length 24 30
      match env.kmeans embs k with
      | Except.error _ => st
      | Except.ok labels =>
          let groups := groupByLabel ((chunk_texts.zip chunk_metas).zip labels)
          let nodes := buildGroupNodes env topic_hint incremental groups
          if nodes ≠ [] then
            let st1 := if incremental then ([] : NodeColl) else st
            collUpsert st1 nodes
          else st

/-! ### Invariant predicates and concrete instances -/

/-- An undirected edge key one of whose endpoints is a document node
name (`"doc::" ++ d`). -/
def DocKeyP (p : String × String) : Prop :=
  (∃ d, p.1 = "doc::" ++ d) ∨ (∃ d, p.2 = "doc::" ++ d)

/-- The document-edge invariant of the co-mention graph: every stored
edge touching a document node has weight exactly 1 (`add_edge(dnode, e,
w=1)` is the only writer of such edges in normal operation). -/
def docEdgesOne (G : Graph) : Prop :=
  ∀ p w, alGet G.edges p = some w → DocKeyP p → w = 1

/-- An entity name that cannot collide with a document node name. -/
def nonDocName (e : String) : Prop :=
  ∀ d, e ≠ "doc::" ++ d

/-- The fresh graph of a new `GraphStore` (`nx.Graph()`). -/
def graphEmpty : Graph := ⟨[], []⟩

/-- A concrete `hybrid_search` environment: two vector candidates, both
chunks of the same document `d`; graph bias off; cross-encoder already
degraded; all oracles constant. -/
def cexHybridEnv : HybridEnv :=
  { vecRows := [("c1", "t1", [("doc_id", MVal.s "d")]),
                ("c2", "t2", [("doc_id", MVal.s "d")])]
    bmRows := []
    useGraphBias := false
    boosts := []
    tempW := fun _ => 1
    useCE := false
    ce := Except.ok []
    embScore := fun _ => 0
    snippet := fun _ _ => ("", 0, 0) }

/-- A build environment whose chunk-embedding call always raises. -/
def embedFailEnv : BuildEnv :=
  { corpus := [("c1", String.mk (List.replicate 70 'a'), [])]
    embedChunks := fun _ => Except.error ()
    kmeans := fun _ _ => Except.ok []
    embedOne := fun _ => Except.ok []
    uuidHex := fun _ => "u"
    nowIso := "2026-01-01T00:00:00+00:00" }

/-- A pre-existing RAPTOR node collection with 20 nodes. -/
def st20 : NodeColl :=
  (List.range 20).map fun i => ("node::" ++ toString i, "s", [], [])

/-- A build environment over a 1000-chunk corpus (all oracles succeed). -/
def corpus1000Env : BuildEnv :=
  { corpus := (List.range 1000).map fun i => ("c" ++ toString i, "t", [])
    embedChunks := fun ts => Except.ok (ts.map fun _ => [1])
    kmeans := fun es _ => Except.ok (es.map fun _ => 0)
    embedOne := fun _ => Except.ok [1]
    uuidHex := fun _ => "u"
    nowIso := "2026-01-01T00:00:00+00:00" }

/-! ### Association-list lemmas -/

theorem alGet_alSet_self {K V : Type} [DecidableEq K] (l : List (K × V)) (k : K)
    (v : V) : alGet (alSet l k v) k = some v := by
  induction l with
  | nil => simp [alSet, alGet]
  | cons h t ih =>
      by_cases hk : k = h.1
      · simp [alSet, alGet, hk]
      · simp [alSet, alGet, hk, ih]

theorem alGet_alSet_ne {K V : Type} [DecidableEq K] (l : List (K × V))
    (k k' : K) (v : V) (h : k' ≠ k) : alGet (alSet l k v) k' = alGet l k' := by
  induction l with
  | nil => simp [alSet, alGet, h]
  | cons hd t ih =>
      by_cases hk : k = hd.1
      · subst hk
        simp [alSet, alGet, h]
      · by_cases hk' : k' = hd.1
        · simp [alSet, alGet, hk, hk']
        · simp [alSet, alGet, hk, hk', ih]

theorem mem_alSet {K V : Type} [DecidableEq K] (l : List (K × V)) (k : K)
    (v : V) (p : K × V) (h : p ∈ alSet l k v) : p = (k, v) ∨ p ∈ l := by
  induction l with
  | nil => simpa [alSet] using h
  | cons hd t ih =>
      by_cases hk : k = hd.1
      · simp only [alSet, if_pos hk, List.mem_cons] at h
        rcases h with h | h
        · exact Or.inl h
        · exact Or.inr (List.mem_cons_of_mem _ h)
      · simp only [alSet, if_neg hk, List.mem_cons] at h
        rcases h with h | h
        · exact Or.inr (h ▸ List.mem_cons_self _ _)
        · rcases ih h with h' | h'
          · exact Or.inl h'
          · exact Or.inr (List.mem_cons_of_mem _ h')

theorem mem_keys_alSet {K V : Type} [DecidableEq K] (l : List (K × V)) (k : K)
    (v : V) (a : K) (h : a ∈ (alSet l k v).map Prod.fst) :
    a = k ∨ a ∈ l.map Prod.fst := by
  rcases List.mem_map.1 h with ⟨p, hp, rfl⟩
  rcases mem_alSet l k v p hp with h' | h'
  · exact Or.inl (by rw [h'])
  · exact Or.inr (List.mem_map_of_mem _ h')

theorem nodup_keys_alSet {K V : Type} [DecidableEq K] (l : List (K × V))
    (k : K) (v : V) (h : (l.map Prod.fst).Nodup) :
    ((alSet l k v).map Prod.fst).Nodup := by
  induction l with
  | nil => simp [alSet]
  | cons hd t ih =>
      obtain ⟨k1, v1⟩ := hd
      simp only [List.map_cons, List.nodup_cons] at h
      by_cases hk : k = k1
      · simpa [alSet, hk, List.nodup_cons] using h
      · simp only [alSet, if_neg hk, List.map_cons, List.nodup_cons]
        refine ⟨?_, ih h.2⟩
        intro hmem
        rcases mem_keys_alSet t k v k1 hmem with h' | h'
        · exact hk h'.symm
        · exact h.1 h'

/-! ### C7: `choose_k` bounds and formula -/

/-- C7 (amended): `choose_k(n, target, k_max)` returns 1 whenever
`n ≤ target` and otherwise the half-to-even rounded `n / max(5, target)`
clamped to `[1, k_max]`; the result is always at least 1, and it is at
most `k_max` provided `k_max ≥ 1` (for `k_max ≤ 0` the lower clamp wins
and the result, 1, exceeds `k_max`). -/
theorem chooseK_spec (n t km : ℤ) :
    (n ≤ t → choose_k n t km = 1) ∧
    (t < n → choose_k n t km = max 1 (min (pyRound ((n : ℚ) / (max 5 (t : ℚ)))) km)) ∧
    1 ≤ choose_k n t km ∧
    (1 ≤ km → choose_k n t km ≤ km) := by
  refine ⟨fun h => by simp [choose_k, h], fun h => by simp [choose_k, not_le.2 h], ?_, ?_⟩
  · unfold choose_k
    split
    · exact le_refl 1
    · exact le_max_left _ _
  · intro hkm
    unfold choose_k
    split
    · exact hkm
    · exact max_le hkm (min_le_right _ _)

/-- C7 witness: concrete instantiation of `chooseK_spec`. -/
theorem chooseK_spec_witness :
    choose_k 10 20 60 = 1 ∧ choose_k 100 20 60 ≤ 60 ∧ 1 ≤ choose_k 100 20 60 :=
  ⟨(chooseK_spec 10 20 60).1 (by decide),
   (chooseK_spec 100 20 60).2.2.2 (by decide),
   (chooseK_spec 100 20 60).2.2.1⟩

/-- C7 counterexample: with `k_max = 0` the claim "the result never
exceeds `k_max`" fails — `choose_k` returns 1 in both the small-`n`
branch and the clamped branch, exceeding `k_max`. -/
theorem chooseK_kmax_cex : 0 < choose_k 3 5 0 ∧ 0 < choose_k 10 5 0 := by
  constructor
  · norm_num [choose_k]
  · have h : ¬ ((10 : ℤ) ≤ 5) := by decide
    rw [choose_k, if_neg h]
    exact lt_of_lt_of_le one_pos (le_max_left _ _)

/-! ### C4 and C10: temporal weight -/

theorem real_one_lit : (1.0 : ℝ) = 1 := by norm_num

theorem decay_weight_range (d h : ℝ) :
    0.2 ≤ decay_weight d h ∧ decay_weight d h ≤ 1.5 :=
  ⟨le_max_left _ _, max_le (by norm_num) (min_le_left _ _)⟩

theorem decay_weight_at_zero (h : ℝ) : decay_weight 0 h = 1.2 := by
  rw [decay_weight, if_pos (by norm_num : (0:ℝ) ≤ 2)]
  rw [neg_zero, zero_div, Real.exp_zero, one_mul]
  rw [min_eq_right (by norm_num : (1.2:ℝ) ≤ 1.5)]
  exact max_eq_right (by norm_num)

theorem decay_weight_at_thirty (x : ℝ) : decay_weight 30 (max 3 x) < 1.2 := by
  have hpos : (0:ℝ) < max 3 x := lt_of_lt_of_le (by norm_num) (le_max_left _ _)
  have hneg : -30 / max 3 x < 0 := div_neg_of_neg_of_pos (by norm_num) hpos
  have hexp : Real.exp (-30 / max 3 x) < 1 := Real.exp_lt_one_iff.2 hneg
  rw [decay_weight, if_neg (by norm_num : ¬ ((30:ℝ) ≤ 2)), real_one_lit, mul_one]
  rw [min_eq_right (le_of_lt (lt_trans hexp (by norm_num)))]
  exact max_lt (by norm_num) (lt_trans hexp (by norm_num))

/-- C4: `temporal_weight` always lands in `[0.2, 1.5]`; an unknown
`published_at` gives exactly 1.0; a known timestamp gives the clamped
`exp(-days/horizon)`-with-recency-bonus formula; and at any horizon the
code can produce (`max 3 x`), the weight at `days = 0` strictly exceeds
the weight at `days = 30`. -/
theorem temporalWeight_spec (iso : String → Option ℝ) (now : ℝ) (meta : Meta)
    (recentHit : Bool) (dd : ℝ) :
    (0.2 ≤ temporal_weight iso now meta recentHit dd ∧
      temporal_weight iso now meta recentHit dd ≤ 1.5) ∧
    (parse_ts iso (alGet meta "published_at") = none →
      temporal_weight iso now meta recentHit dd = 1) ∧
    (∀ ts, parse_ts iso (alGet meta "published_at") = some ts →
      temporal_weight iso now meta recentHit dd =
        decay_weight ((now - ts) / 86400)
          (max 3 (dd * (if recentHit then 0.5 else 1.0)))) ∧
    (∀ x : ℝ, decay_weight 30 (max 3 x) < decay_weight 0 (max 3 x)) := by
  refine ⟨?_, ?_, ?_, ?_⟩
  · cases hp : parse_ts iso (alGet meta "published_at") with
    | none => simp [temporal_weight, hp]; norm_num
    | some ts =>
        have h := decay_weight_range ((now - ts) / 86400)
          (max 3 (dd * (if recentHit then 0.5 else 1.0)))
        simpa [temporal_weight, hp] using h
  · intro hp
    simp [temporal_weight, hp, real_one_lit]
  · intro ts hp
    simp [temporal_weight, hp]
  · intro x
    rw [decay_weight_at_zero]
    exact decay_weight_at_thirty x

/-- C4 witness: `temporalWeight_spec` applied at concrete oracles — an
unparsable timestamp, a parsed timestamp exactly one day old, and the
0-vs-30-day comparison at horizon `max 3 0 = 3`. -/
theorem temporalWeight_spec_witness :
    temporal_weight (fun _ => none) 0 [] false 30 = 1 ∧
    temporal_weight (fun _ => some 0) 86400 [("published_at", MVal.s "t")] false 30
      = decay_weight ((86400 - 0) / 86400) (max 3 (30 * (if false then 0.5 else 1.0))) ∧
    decay_weight 30 (max 3 0) < decay_weight 0 (max 3 0) :=
  ⟨(temporalWeight_spec (fun _ => none) 0 [] false 30).2.1 rfl,
   (temporalWeight_spec (fun _ => some 0) 86400 [("published_at", MVal.s "t")] false 30).2.2.1
      0 rfl,
   (temporalWeight_spec (fun _ => none) 0 [] false 30).2.2.2 0⟩

/-- C10: `temporal_weight` is total in `published_at` — a missing key, an
empty string, a string the ISO parser rejects, and every non-string
value (float, int, bool) all take the caught-exception path and return
exactly 1.0. -/
theorem temporalWeight_total_one (iso : String → Option ℝ) (now : ℝ)
    (meta : Meta) (recentHit : Bool) (dd : ℝ) :
    (alGet meta "published_at" = none →
      temporal_weight iso now meta recentHit dd = 1) ∧
    (alGet meta "published_at" = some (MVal.s "") →
      temporal_weight iso now meta recentHit dd = 1) ∧
    (∀ s, alGet meta "published_at" = some (MVal.s s) → iso s = none →
      temporal_weight iso now meta recentHit dd = 1) ∧
    (∀ v, alGet meta "published_at" = some (MVal.q v) →
      temporal_weight iso now meta recentHit dd = 1) ∧
    (∀ v, alGet meta "published_at" = some (MVal.n v) →
      temporal_weight iso now meta recentHit dd = 1) ∧
    (∀ v, alGet meta "published_at" = some (MVal.b v) →
      temporal_weight iso now meta recentHit dd = 1) := by
  refine ⟨fun h => by simp [temporal_weight, parse_ts, h, real_one_lit],
          fun h => by simp [temporal_weight, parse_ts, h, real_one_lit],
          fun s h hiso => ?_,
          fun v h => by simp [temporal_weight, parse_ts, h, real_one_lit],
          fun v h => by simp [temporal_weight, parse_ts, h, real_one_lit],
          fun v h => by simp [temporal_weight, parse_ts, h, real_one_lit]⟩
  by_cases hs : s = ""
  · subst hs
    simp [temporal_weight, parse_ts, h, real_one_lit]
  · simp [temporal_weight, parse_ts, h, hs, hiso, real_one_lit]

/-- C10 witness: `temporalWeight_total_one` applied at the four concrete
degenerate `published_at` shapes. -/
theorem temporalWeight_total_one_witness :
    temporal_weight (fun _ => none) 0 [] false 30 = 1 ∧
    temporal_weight (fun _ => none) 0 [("published_at", MVal.s "")] false 30 = 1 ∧
    temporal_weight (fun _ => none) 0 [("published_at", MVal.s "not-a-date")] false 30 = 1 ∧
    temporal_weight (fun _ => none) 0 [("published_at", MVal.q 0)] false 30 = 1 :=
  ⟨(temporalWeight_total_one (fun _ => none) 0 [] false 30).1 rfl,
   (temporalWeight_total_one (fun _ => none) 0 [("published_at", MVal.s "")] false 30).2.1 rfl,
   (temporalWeight_total_one (fun _ => none) 0 [("published_at", MVal.s "not-a-date")] false 30).2.2.1
      "not-a-date" rfl rfl,
   (temporalWeight_total_one (fun _ => none) 0 [("published_at", MVal.q 0)] false 30).2.2.2.1
      0 rfl⟩

/-! ### C3: cross-encoder failure degrades to embedding-cosine rerank -/

theorem zipScores_meta_mem (c : List (String × String × Meta)) (s : List ℚ)
    (r : Ranked) (h : r ∈ zipScores c s) : ∃ x ∈ c, r.2.2.1 = x.2.2 := by
  induction c generalizing s with
  | nil => simp [zipScores] at h
  | cons hd t ih =>
      cases s with
      | nil => simp [zipScores] at h
      | cons s0 st =>
          simp only [zipScores, List.zip_cons_cons, List.map_cons, List.mem_cons] at h
          rcases h with h | h
          · exact ⟨hd, List.mem_cons_self _ _, by rw [h]⟩
          · rcases ih st h with ⟨x, hx, hm⟩
            exact ⟨x, List.mem_cons_of_mem _ hx, hm⟩

theorem markFallback_flag (m : Meta) :
    markFallback m = [] ∨ alGet (markFallback m) "_rerank_fallback" = some (MVal.s "embed") := by
  by_cases hm : m = []
  · exact Or.inl (by simp [markFallback, hm])
  · exact Or.inr (by rw [markFallback, if_neg hm]; exact alGet_alSet_self m _ _)

/-- C3 (amended): when the cross-encoder call raises on a non-empty
candidate list, `rerank` does not propagate the exception — it returns
the embedding-cosine ranking, flips the module global `_USE_CE` to
false, and every later call in the false state keeps using the
embedding-cosine fallback and ignores the cross-encoder entirely; each
metadata of each returned candidate carries the `_rerank_fallback` flag,
except a candidate whose metadata dict was empty (Python-falsy), for
which the in-place update lands on a fresh dict and is lost. -/
theorem rerank_fallback_spec (emb : String → ℚ) (q : String)
    (cands : List (String × String × Meta)) (h : cands ≠ []) :
    (rerank true (Except.error ()) emb q cands).1 = false ∧
    (∀ ce, (rerank false ce emb q cands).1 = false) ∧
    (∀ ce ce', (rerank false ce emb q cands).2 = (rerank false ce' emb q cands).2) ∧
    (rerank true (Except.error ()) emb q cands).2 =
      (rerank false (Except.ok []) emb q cands).2 ∧
    (∀ r ∈ (rerank true (Except.error ()) emb q cands).2,
      r.2.2.1 = [] ∨ alGet r.2.2.1 "_rerank_fallback" = some (MVal.s "embed")) := by
  refine ⟨by simp [rerank, h], fun ce => by simp [rerank, h],
          fun ce ce' => by simp [rerank, h], by simp [rerank, h], ?_⟩
  intro r hr
  simp only [rerank, if_neg h, if_true, sortDescBy, List.mem_insertionSort] at hr
  rcases zipScores_meta_mem _ _ _ hr with ⟨x, hx, hm⟩
  rcases List.mem_map.1 hx with ⟨c, _, rfl⟩
  rw [hm]
  exact markFallback_flag c.2.2

/-- C3 witness: `rerank_fallback_spec` at one concrete candidate with a
non-empty metadata dict and a failing cross-encoder. -/
theorem rerank_fallback_spec_witness :
    (rerank true (Except.error ()) (fun _ => (2 : ℚ)) "q"
      [("i", "t", [("x", MVal.s "1")])]).1 = false :=
  (rerank_fallback_spec (fun _ => (2 : ℚ)) "q" [("i", "t", [("x", MVal.s "1")])]
    (by simp)).1

/-- C3 counterexample: a candidate whose metadata dict is empty is *not*
marked with the degradation flag — `(c[2] or {})` evaluates to a fresh
dict on a falsy (empty) meta, so the update is discarded, contradicting
"marks the metadata of each candidate with a degradation flag". -/
theorem rerank_emptyMeta_unmarked :
    (rerank true (Except.error ()) (fun _ => 0) "q" [("i", "t", [])]).2 =
      [("i", "t", ([] : Meta), 0)] := by
  decide

/-! ### C6: `doc_boosts` formula, absence at zero hits, monotonicity -/

theorem boostVal_mono (h h' : ℕ) (hle : h ≤ h') : boostVal h ≤ boostVal h' := by
  unfold boostVal
  have h1 : (0 : ℝ) < 1 + (h : ℝ) := by positivity
  have h2 : (1 : ℝ) + (h : ℝ) ≤ 1 + (h' : ℝ) := by
    have : (h : ℝ) ≤ (h' : ℝ) := Nat.cast_le.2 hle
    linarith
  exact add_le_add_left (Real.log_le_log h1 h2) 1

theorem foldl_mem_invariant {α β : Type} (l : List α) (f : β → α → β)
    (acc : β) (P : β → Prop) (hacc : P acc)
    (hstep : ∀ b, P b → ∀ a ∈ l, P (f b a)) : P (l.foldl f acc) := by
  induction l generalizing acc with
  | nil => exact hacc
  | cons hd t ih =>
      exact ih (f acc hd) (hstep acc hacc hd (List.mem_cons_self _ _))
        (fun b hb a ha => hstep b hb a (List.mem_cons_of_mem _ ha))

/-- C6: every entry of `doc_boosts` carries the value `1 + log1p(hits)`
of a doc-kind node with a positive hit count (so zero-hit documents get
no entry); an empty query-entity list yields the empty map; and the
boost formula is monotone non-decreasing in the hit count. -/
theorem docBoosts_spec (G : Graph) (qents : List String) (k : ℕ) :
    (qents = [] → doc_boosts G qents k = []) ∧
    (∀ d v, (d, v) ∈ doc_boosts G qents k →
      ∃ n nd, (n, nd) ∈ G.nodes ∧ nd.kind = "doc" ∧ docIdOfNode n = d ∧
        0 < G.hitsOf qents n ∧ v = boostVal (G.hitsOf qents n)) ∧
    (∀ h h' : ℕ, h ≤ h' → boostVal h ≤ boostVal h') := by
  refine ⟨fun h => by simp [doc_boosts, h], ?_, boostVal_mono⟩
  intro d v hdv
  by_cases hq : qents = []
  · simp [doc_boosts, hq] at hdv
  · simp only [doc_boosts, if_neg hq] at hdv
    have hmem : (d, v) ∈ G.nodes.foldl
        (fun acc nd =>
          if nd.2.kind = "doc" then
            let hits := G.hitsOf qents nd.1
            if 0 < hits then alSet acc (docIdOfNode nd.1) (boostVal hits) else acc
          else acc) [] := by
      split at hdv
      · exact (List.mem_insertionSort _).1 (List.mem_of_mem_take hdv)
      · exact hdv
    refine foldl_mem_invariant G.nodes _ []
      (fun acc => (d, v) ∈ acc →
        ∃ n nd, (n, nd) ∈ G.nodes ∧ nd.kind = "doc" ∧ docIdOfNode n = d ∧
          0 < G.hitsOf qents n ∧ v = boostVal (G.hitsOf qents n))
      (by intro h; simp at h)
      ?_ hmem
    intro acc hacc a ha hin
    by_cases hkind : a.2.kind = "doc"
    · simp only [hkind, if_pos] at hin
      by_cases hhits : 0 < G.hitsOf qents a.1
      · simp only [if_pos hhits] at hin
        rcases mem_alSet _ _ _ _ hin with h' | h'
        · rcases Prod.mk.injEq .. ▸ h' with ⟨hd1, hv1⟩
          exact ⟨a.1, a.2, by simpa using ha, hkind, hd1.symm, hhits, hv1⟩
        · exact hacc h'
      · simp only [if_neg hhits] at hin
        exact hacc hin
    · simp only [hkind, if_neg] at hin
      · exact hacc hin

/-- C6 witness: `docBoosts_spec` instantiated — the empty-query case on
a one-document graph, and monotonicity of the boost value at 0 ≤ 3. -/
theorem docBoosts_spec_witness :
    doc_boosts ⟨[("doc::d", ⟨"doc", 0⟩)], []⟩ [] 5 = [] ∧
    boostVal 0 ≤ boostVal 3 :=
  ⟨(docBoosts_spec ⟨[("doc::d", ⟨"doc", 0⟩)], []⟩ [] 5).1 rfl,
   (docBoosts_spec ⟨[("doc::d", ⟨"doc", 0⟩)], []⟩ [] 5).2.2 0 3 (by decide)⟩

/-! ### C1 and C9: `hybrid_search` hit-list shape -/

theorem vectorCandidates_keys_nodup (rows : List (String × String × Meta)) :
    ((vectorCandidates rows).map Prod.fst).Nodup :=
  foldl_mem_invariant rows _ [] (fun acc => (acc.map Prod.fst).Nodup)
    (by simp) (fun b hb a _ => nodup_keys_alSet _ _ _ hb)

theorem mergeBm25_keys_nodup (vec : List (String × CandData))
    (rows : List (String × String × Meta)) (h : (vec.map Prod.fst).Nodup) :
    ((mergeBm25 vec rows).map Prod.fst).Nodup := by
  refine foldl_mem_invariant rows _ vec (fun acc => (acc.map Prod.fst).Nodup) h ?_
  intro b hb a _
  cases halGet : alGet b a.1 with
  | none => simpa [halGet] using nodup_keys_alSet b a.1 _ hb
  | some d => simpa [halGet] using nodup_keys_alSet b a.1 _ hb

theorem applyGraphBias_keys (boosts : List (String × ℚ))
    (vec : List (String × CandData)) :
    (applyGraphBias boosts vec).map Prod.fst = vec.map Prod.fst := by
  unfold applyGraphBias
  rw [List.map_map]
  refine List.map_congr_left ?_
  intro c _
  cases hm : metaStr c.2.meta "doc_id" with
  | none => simp [hm]
  | some d => cases hb : alGet boosts d <;> simp [hm, hb]

theorem zipScores_ids (c : List (String × String × Meta)) (s : List ℚ) :
    (zipScores c s).map (fun r => r.1) = (c.map fun x => x.1).take s.length := by
  induction c generalizing s with
  | nil => simp [zipScores]
  | cons hd t ih =>
      cases s with
      | nil => simp [zipScores]
      | cons s0 st => simp [zipScores, List.take_succ_cons, ← ih st, zipScores]

theorem rerank_ids_nodup (u : Bool) (ce : Except Unit (List ℚ))
    (emb : String → ℚ) (q : String) (c : List (String × String × Meta))
    (h : (c.map (fun x => x.1)).Nodup) :
    (((rerank u ce emb q c).2).map (fun r => r.1)).Nodup := by
  have hmarked : ((c.map fun x => (x.1, x.2.1, markFallback x.2.2)).map fun x => x.1)
      = c.map fun x => x.1 := by
    rw [List.map_map]
    rfl
  have hsort : ∀ (l : List Ranked),
      ((sortDescBy (fun r => r.2.2.2) l).map (fun r => r.1)).Nodup ↔
        (l.map (fun r => r.1)).Nodup :=
    fun l => ((List.perm_insertionSort _ l).map _).nodup_iff
  have htake : ∀ (ids : List String) (n : ℕ), ids.Nodup → (ids.take n).Nodup :=
    fun ids n hn => List.Nodup.sublist (List.take_sublist n ids) hn
  by_cases hc : c = []
  · simp [rerank, hc]
  · cases u with
    | false =>
        have hbr : (rerank false ce emb q c).2 = sortDescBy (fun r => r.2.2.2)
            (zipScores (c.map fun x => (x.1, x.2.1, markFallback x.2.2))
              ((c.map fun x => x.2.1).map emb)) := by
          simp [rerank, hc]
        rw [hbr, hsort, zipScores_ids, hmarked]
        exact htake _ _ h
    | true =>
        cases ce with
        | ok scores =>
            have hbr : (rerank true (Except.ok scores) emb q c).2 =
                sortDescBy (fun r => r.2.2.2) (zipScores c scores) := by
              simp [rerank, hc]
            rw [hbr, hsort, zipScores_ids]
            exact htake _ _ h
        | error e =>
            have hbr : (rerank true (Except.error e) emb q c).2 =
                sortDescBy (fun r => r.2.2.2)
                  (zipScores (c.map fun x => (x.1, x.2.1, markFallback x.2.2))
                    ((c.map fun x => x.2.1).map emb)) := by
              simp [rerank, hc]
            rw [hbr, hsort, zipScores_ids, hmarked]
            exact htake _ _ h

theorem nodup_map_comp {α β : Type} {f : α → β} {idf : β → String}
    {l : List α} (pf : α → String) (hf : ∀ a, idf (f a) = pf a)
    (h : (l.map pf).Nodup) : ((l.map f).map idf).Nodup := by
  rw [List.map_map, show (idf ∘ f) = pf from funext hf]
  exact h

theorem nodup_proj_take_sort {α : Type} {idf : α → String} (key : α → ℚ)
    (l : List α) (n : ℕ) (h : (l.map idf).Nodup) :
    (((sortDescBy key l).take n).map idf).Nodup := by
  rw [List.map_take]
  have hs : ((sortDescBy key l).map idf).Nodup :=
    ((List.perm_insertionSort _ l).map idf).nodup_iff.2 h
  exact List.Nodup.sublist (List.take_sublist _ _) hs

theorem hybridSearch_shape (env : HybridEnv) (q : String) (k : ℕ) :
    (hybrid_search env q k).length ≤ k ∧
    ((hybrid_search env q k).map Hit.id).Nodup := by
  constructor
  · simp only [hybrid_search]
    rw [List.length_map]
    exact List.length_take_le _ _
  · simp only [hybrid_search]
    refine nodup_map_comp (fun r : Ranked => r.1) (fun _ => rfl) ?_
    refine nodup_proj_take_sort _ _ _ ?_
    refine rerank_ids_nodup _ _ _ _ _ ?_
    refine nodup_map_comp Prod.fst (fun _ => rfl) ?_
    refine nodup_proj_take_sort _ _ _ ?_
    by_cases hg : env.useGraphBias
    · rw [if_pos hg, applyGraphBias_keys]
      exact mergeBm25_keys_nodup _ _ (vectorCandidates_keys_nodup _)
    · rw [if_neg hg]
      exact mergeBm25_keys_nodup _ _ (vectorCandidates_keys_nodup _)

/-- C1 (amended): `hybrid_search(q, k)` returns at most `k` hits and the
hits are pairwise distinct by chunk id (the candidate pool is a dict
keyed by chunk id); no `doc_id`-level deduplication is performed. -/
theorem hybridSearch_len_and_chunk_dedup (env : HybridEnv) (q : String) (k : ℕ) :
    (hybrid_search env q k).length ≤ k ∧
    ((hybrid_search env q k).map Hit.id).Nodup :=
  hybridSearch_shape env q k

/-- C1 counterexample: two distinct chunks of the same document both
survive to the hit list — `hybrid_search` performs no deduplication by
`doc_id`, so "no two hits share a `doc_id`" fails on this input. -/
theorem hybridSearch_dup_docid_cex :
    (hybrid_search cexHybridEnv "q" 10).map (fun h => (h.id, alGet h.meta "doc_id")) =
      [("c1", some (MVal.s "d")), ("c2", some (MVal.s "d"))] := by
  norm_num [hybrid_search, cexHybridEnv, vectorCandidates, mergeBm25, applyGraphBias,
    sortDescBy, List.insertionSort, List.orderedInsert, rerank, zipScores, markFallback,
    metaQ, alSet, alGet, alErase]

/-- C9: the hits of `hybrid_search` are pairwise distinct by chunk id —
the candidate set is a dict keyed by chunk id, so no chunk id can occur
twice in one result list, for any environment, query and `k`. -/
theorem hybridSearch_ids_pairwise_ne (env : HybridEnv) (q : String) (k : ℕ) :
    ((hybrid_search env q k).map Hit.id).Pairwise (· ≠ ·) :=
  (hybridSearch_shape env q k).2

/-! ### C2 and C8: RAPTOR build failure semantics and incremental gate -/

/-- C2: if the chunk-embedding step or the clustering step of
`build_nodes` raises, the build aborts (`return`) before the node
collection is ever touched — in particular before the incremental-mode
`reset()` — so the existing RAPTOR node collection is unchanged. -/
theorem buildNodes_abort_preserves (env : BuildEnv) (st : NodeColl)
    (topic : String) (mind maxd : ℕ) (inc : Bool)
    (h : (∀ ts, env.embedChunks ts = Except.error ()) ∨
         (∀ es k, env.kmeans es k = Except.error ())) :
    build_nodes env st topic mind maxd inc = st := by
  simp only [build_nodes]
  split
  · rfl
  · split
    · rfl
    · rcases h with h | h
      · rw [h]
      · split
        · rfl
        · rw [h]

/-- C2 witness: a concrete environment whose embedder always raises
leaves a concrete 20-node collection byte-for-byte unchanged. -/
theorem buildNodes_abort_witness :
    build_nodes embedFailEnv st20 "" 50 1000 false = st20 :=
  buildNodes_abort_preserves embedFailEnv st20 "" 50 1000 false
    (Or.inl fun _ => rfl)

/-- C8 (amended): with `incremental = true` the rebuild is governed by
`incrementalSkip` over the *fetched* chunk count (capped by `max_docs`)
and the first 1000 existing node ids: a true gate returns with the state
unchanged; the gate requires a positive existing node count and skips
exactly when `expected_nodes − existing < max(5, existing·0.25)` — a
growth *equal* to the threshold triggers the rebuild. With 20 existing
nodes: 1000 fetched chunks skip, 5000 fetched chunks trigger. -/
theorem raptorSkip_spec (env : BuildEnv) (st : NodeColl) (topic : String)
    (mind maxd : ℕ)
    (h : incrementalSkip (st.take 1000).length ((env.corpus.take maxd)).length = true) :
    build_nodes env st topic mind maxd true = st ∧
    incrementalSkip 20 1000 = true ∧
    incrementalSkip 20 5000 = false ∧
    incrementalSkip 0 100 = false := by
  refine ⟨?_, by norm_num [incrementalSkip], by norm_num [incrementalSkip],
          by norm_num [incrementalSkip]⟩
  simp only [build_nodes, Bool.true_and, h]
  rfl

/-- C8 witness: `raptorSkip_spec` applied to a 20-node collection and a
1000-chunk corpus — the incremental call is a no-op. -/
theorem raptorSkip_spec_witness :
    build_nodes corpus1000Env st20 "" 50 1000 true = st20 :=
  (raptorSkip_spec corpus1000Env st20 "" 50 1000
    (by norm_num [incrementalSkip, st20, corpus1000Env])).1

/-- C8 counterexample: the claim says the rebuild is skipped *unless*
the expected growth exceeds `max(5, existing·0.25)`. With 20 existing
nodes and 1250 fetched chunks the growth is exactly 5 — not more than
the threshold — yet the code triggers (`<`, not `≤`); and with 0
existing nodes the code never skips, even at growth 1 ≤ 5. -/
theorem raptorSkip_threshold_cex :
    incrementalSkip 20 1250 = false ∧ incrementalSkip 0 100 = false := by
  constructor <;> norm_num [incrementalSkip]

/-! ### C5: `add_chunk` increments and append-only behaviour -/

theorem keyOf_eq_iff (u v a b : String) :
    keyOf u v = keyOf a b ↔ (u = a ∧ v = b) ∨ (u = b ∧ v = a) := by
  unfold keyOf
  by_cases h1 : u ≤ v <;> by_cases h2 : a ≤ b <;>
    simp only [h1, h2, if_pos, if_neg, if_true, if_false, Prod.mk.injEq]
  · constructor
    · exact fun h => Or.inl h
    · rintro (⟨rfl, rfl⟩ | ⟨rfl, rfl⟩)
      · exact ⟨rfl, rfl⟩
      · exact ⟨le_antisymm h1 h2, le_antisymm h2 h1⟩
  · constructor
    · rintro ⟨rfl, rfl⟩
      exact Or.inr ⟨rfl, rfl⟩
    · rintro (⟨rfl, rfl⟩ | ⟨rfl, rfl⟩)
      · exact absurd h1 h2
      · exact ⟨rfl, rfl⟩
  · constructor
    · rintro ⟨rfl, rfl⟩
      exact Or.inr ⟨rfl, rfl⟩
    · rintro (⟨rfl, rfl⟩ | ⟨rfl, rfl⟩)
      · exact absurd h2 h1
      · exact ⟨rfl, rfl⟩
  · constructor
    · rintro ⟨rfl, rfl⟩
      exact Or.inl ⟨rfl, rfl⟩
    · rintro (⟨rfl, rfl⟩ | ⟨rfl, rfl⟩)
      · exact ⟨rfl, rfl⟩
      · exact absurd (le_of_lt (lt_of_not_le h1)) h2
  -- the last case pairs (v, u) with (b, a); equality forces u = a, v = b

theorem bumpEntity_edges (G : Graph) (e : String) :
    (G.bumpEntity e).edges = G.edges := by
  unfold Graph.bumpEntity
  cases G.getNode e <;> rfl

theorem countD_bumpEntity_self (G : Graph) (e : String) :
    (G.bumpEntity e).countD e = G.countD e + 1 := by
  unfold Graph.bumpEntity Graph.countD Graph.getNode
  cases h : alGet G.nodes e with
  | none => simp [h, alGet_alSet_self]
  | some nd => simp [h, alGet_alSet_self]

theorem countD_bumpEntity_ne (G : Graph) (e n : String) (h : n ≠ e) :
    (G.bumpEntity e).countD n = G.countD n := by
  unfold Graph.bumpEntity Graph.countD Graph.getNode
  cases hg : alGet G.nodes e <;> simp [alGet_alSet_ne _ _ _ _ h]

theorem countD_foldl_bumpEntity (l : List String) (G : Graph) (n : String) :
    (l.foldl Graph.bumpEntity G).countD n = G.countD n + l.count n := by
  induction l generalizing G with
  | nil => simp
  | cons e t ih =>
      rw [List.foldl_cons, ih, List.count_cons]
      by_cases hne : n = e
      · subst hne
        rw [countD_bumpEntity_self]
        simp
        ring
      · rw [countD_bumpEntity_ne G e n hne]
        have hne' : ¬ (e = n) := fun h => hne h.symm
        simp [hne, hne']

theorem edges_foldl_bumpEntity (l : List String) (G : Graph) :
    (l.foldl Graph.bumpEntity G).edges = G.edges := by
  induction l generalizing G with
  | nil => rfl
  | cons e t ih => rw [List.foldl_cons, ih, bumpEntity_edges]

theorem getW_congr (G : Graph) (x y a b : String)
    (h : keyOf x y = keyOf a b) : G.getW x y = G.getW a b := by
  unfold Graph.getW
  rw [h]

theorem getW_setW (G : Graph) (a b : String) (w : ℤ) (x y : String) :
    (G.setW a b w).getW x y =
      if keyOf x y = keyOf a b then some w else G.getW x y := by
  unfold Graph.setW Graph.getW
  by_cases h : keyOf x y = keyOf a b
  · rw [if_pos h, h]
    exact alGet_alSet_self _ _ _
  · rw [if_neg h]
    exact alGet_alSet_ne _ _ _ _ h

theorem bumpPair_nodes (G : Graph) (p : String × String) :
    (G.bumpPair p).nodes = G.nodes := by
  unfold Graph.bumpPair
  cases G.getW p.1 p.2 <;> rfl

theorem wD_bumpPair (G : Graph) (p : String × String) (x y : String) :
    (G.bumpPair p).wD x y =
      if keyOf x y = keyOf p.1 p.2 then G.wD x y + 1 else G.wD x y := by
  unfold Graph.bumpPair Graph.wD
  by_cases h : keyOf x y = keyOf p.1 p.2
  · rw [if_pos h]
    cases hw : G.getW p.1 p.2 with
    | none => simp [getW_setW, h, getW_congr G x y p.1 p.2 h, hw]
    | some w => simp [getW_setW, h, getW_congr G x y p.1 p.2 h, hw]
  · rw [if_neg h]
    cases hw : G.getW p.1 p.2 <;> simp [getW_setW, h]

theorem wD_foldl_bumpPair (ps : List (String × String)) (G : Graph)
    (x y : String) :
    (ps.foldl Graph.bumpPair G).wD x y =
      G.wD x y + (ps.countP (fun p => keyOf p.1 p.2 = keyOf x y) : ℤ) := by
  induction ps generalizing G with
  | nil => simp
  | cons p t ih =>
      rw [List.foldl_cons, ih, wD_bumpPair, List.countP_cons]
      by_cases h : keyOf x y = keyOf p.1 p.2
      · rw [if_pos h]
        simp [h.symm]
        ring
      · rw [if_neg h]
        have : ¬ (keyOf p.1 p.2 = keyOf x y) := fun hh => h hh.symm
        simp [this]

theorem nodes_foldl_bumpPair (ps : List (String × String)) (G : Graph) :
    (ps.foldl Graph.bumpPair G).nodes = G.nodes := by
  induction ps generalizing G with
  | nil => rfl
  | cons p t ih => rw [List.foldl_cons, ih, bumpPair_nodes]

theorem alGet_edges_bumpPair_ne (G : Graph) (p : String × String)
    (key : String × String) (h : keyOf p.1 p.2 ≠ key) :
    alGet (G.bumpPair p).edges key = alGet G.edges key := by
  unfold Graph.bumpPair Graph.setW
  cases G.getW p.1 p.2 <;> exact alGet_alSet_ne _ _ _ _ (fun hh => h hh.symm)

theorem alGet_edges_foldl_bumpPair (ps : List (String × String)) (G : Graph)
    (key : String × String) (h : ∀ p ∈ ps, keyOf p.1 p.2 ≠ key) :
    alGet (ps.foldl Graph.bumpPair G).edges key = alGet G.edges key := by
  induction ps generalizing G with
  | nil => rfl
  | cons p t ih =>
      rw [List.foldl_cons, ih _ (fun q hq => h q (List.mem_cons_of_mem _ hq)),
        alGet_edges_bumpPair_ne _ _ _ (h p (List.mem_cons_self _ _))]

theorem pairsOf_mem {α : Type} (l : List α) (p : α × α)
    (h : p ∈ pairsOf l) : p.1 ∈ l ∧ p.2 ∈ l := by
  induction l with
  | nil => simp [pairsOf] at h
  | cons x xs ih =>
      simp only [pairsOf, List.mem_append, List.mem_map] at h
      rcases h with ⟨y, hy, rfl⟩ | h
      · exact ⟨List.mem_cons_self _ _, List.mem_cons_of_mem _ hy⟩
      · rcases ih h with ⟨h1, h2⟩
        exact ⟨List.mem_cons_of_mem _ h1, List.mem_cons_of_mem _ h2⟩

theorem countP_eq_one_nodup {α : Type} [DecidableEq α] (xs : List α) (b : α)
    (hn : xs.Nodup) (hb : b ∈ xs) : xs.countP (fun y => y = b) = 1 := by
  induction xs with
  | nil => simp at hb
  | cons z t ih =>
      rw [List.nodup_cons] at hn
      rw [List.countP_cons]
      by_cases hbz : b = z
      · subst hbz
        have h0 : t.countP (fun y => y = b) = 0 :=
          List.countP_eq_zero.2 (fun x hx => by
            simp only [decide_eq_true_eq]
            exact fun hxb => hn.1 (hxb ▸ hx))
        simp [h0]
      · have hbt : b ∈ t := by
          rcases List.mem_cons.1 hb with h | h
          · exact absurd h hbz
          · exact h
        have : ¬ (z = b) := fun h => hbz h.symm
        simp [ih hn.2 hbt, this]

theorem countP_pairsOf_one (l : List String) (hn : l.Nodup) (a b : String)
    (ha : a ∈ l) (hb : b ∈ l) (hne : a ≠ b) :
    (pairsOf l).countP (fun p => keyOf p.1 p.2 = keyOf a b) = 1 := by
  induction l with
  | nil => simp at ha
  | cons x xs ih =>
      rw [List.nodup_cons] at hn
      simp only [pairsOf, List.countP_append, List.countP_map]
      by_cases hax : a = x
      · subst hax
        have hbxs : b ∈ xs := by
          rcases List.mem_cons.1 hb with h | h
          · exact absurd h.symm hne
          · exact h
        have hhead : xs.countP ((fun p : String × String =>
            decide (keyOf p.1 p.2 = keyOf a b)) ∘ fun y => (a, y)) = 1 := by
          rw [List.countP_congr ?hc]
          · exact countP_eq_one_nodup xs b hn.2 hbxs
          case hc =>
            intro y hy
            simp only [Function.comp_apply, decide_eq_true_eq]
            rw [keyOf_eq_iff]
            constructor
            · rintro (⟨_, h2⟩ | ⟨h1, _⟩)
              · exact h2
              · exact absurd h1 hne
            · intro h
              exact Or.inl ⟨rfl, h⟩
        have htail : (pairsOf xs).countP
            (fun p => keyOf p.1 p.2 = keyOf a b) = 0 := by
          refine List.countP_eq_zero.2 (fun p hp => ?_)
          simp only [decide_eq_true_eq]
          intro hk
          rcases (keyOf_eq_iff _ _ _ _).1 hk with ⟨h1, _⟩ | ⟨_, h2⟩
          · exact hn.1 (h1 ▸ (pairsOf_mem xs p hp).1)
          · exact hn.1 (h2 ▸ (pairsOf_mem xs p hp).2)
        rw [hhead, htail]
      · by_cases hbx : b = x
        · subst hbx
          have haxs : a ∈ xs := by
            rcases List.mem_cons.1 ha with h | h
            · exact absurd h hax
            · exact h
          have hhead : xs.countP ((fun p : String × String =>
              decide (keyOf p.1 p.2 = keyOf a b)) ∘ fun y => (b, y)) = 1 := by
            rw [List.countP_congr ?hc2]
            · exact countP_eq_one_nodup xs a hn.2 haxs
            case hc2 =>
              intro y hy
              simp only [Function.comp_apply, decide_eq_true_eq]
              rw [keyOf_eq_iff]
              constructor
              · rintro (⟨h1, _⟩ | ⟨_, h2⟩)
                · exact absurd h1.symm hax
                · exact h2
              · intro h
                exact Or.inr ⟨rfl, h⟩
          have htail : (pairsOf xs).countP
              (fun p => keyOf p.1 p.2 = keyOf a b) = 0 := by
            refine List.countP_eq_zero.2 (fun p hp => ?_)
            simp only [decide_eq_true_eq]
            intro hk
            rcases (keyOf_eq_iff _ _ _ _).1 hk with ⟨_, h2⟩ | ⟨h1, _⟩
            · exact hn.1 (h2 ▸ (pairsOf_mem xs p hp).2)
            · exact hn.1 (h1 ▸ (pairsOf_mem xs p hp).1)
          rw [hhead, htail]
        · have haxs : a ∈ xs := by
            rcases List.mem_cons.1 ha with h | h
            · exact absurd h hax
            · exact h
          have hbxs : b ∈ xs := by
            rcases List.mem_cons.1 hb with h | h
            · exact absurd h hbx
            · exact h
          have hhead : xs.countP ((fun p : String × String =>
              decide (keyOf p.1 p.2 = keyOf a b)) ∘ fun y => (x, y)) = 0 := by
            refine List.countP_eq_zero.2 (fun y hy => ?_)
            simp only [Function.comp_apply, decide_eq_true_eq]
            intro hk
            rcases (keyOf_eq_iff _ _ _ _).1 hk with ⟨h1, _⟩ | ⟨h1, _⟩
            · exact hax h1.symm
            · exact hbx h1.symm
          rw [hhead, ih hn.2 haxs hbxs]

theorem keyOf_comps (a b : String) :
    keyOf a b = (a, b) ∨ keyOf a b = (b, a) := by
  unfold keyOf
  split
  · exact Or.inl rfl
  · exact Or.inr rfl

theorem nodes_foldl_setW (ents : List String) (G : Graph) (dnode : String) :
    (ents.foldl (fun g e => g.setW dnode e 1) G).nodes = G.nodes := by
  induction ents generalizing G with
  | nil => rfl
  | cons e t ih => rw [List.foldl_cons, ih]; rfl

theorem alGet_edges_foldl_setW_untouched (ents : List String) (G : Graph)
    (dnode : String) (key : String × String)
    (h : ∀ e ∈ ents, keyOf dnode e ≠ key) :
    alGet ((ents.foldl (fun g e => g.setW dnode e 1) G)).edges key =
      alGet G.edges key := by
  induction ents generalizing G with
  | nil => rfl
  | cons e t ih =>
      rw [List.foldl_cons, ih _ (fun x hx => h x (List.mem_cons_of_mem _ hx))]
      exact alGet_alSet_ne _ _ _ _ (fun hh => h e (List.mem_cons_self _ _) hh.symm)

theorem alGet_edges_foldl_setW_mem (ents : List String) (G : Graph)
    (dnode : String) (e : String) (he : e ∈ ents)
    (hd : ∀ x ∈ ents, x ≠ dnode) :
    alGet ((ents.foldl (fun g e => g.setW dnode e 1) G)).edges (keyOf dnode e) =
      some 1 := by
  induction ents generalizing G with
  | nil => simp at he
  | cons e0 t ih =>
      rw [List.foldl_cons]
      by_cases het : e ∈ t
      · exact ih _ het (fun x hx => hd x (List.mem_cons_of_mem _ hx))
      · have he0 : e = e0 := by
          rcases List.mem_cons.1 he with h | h
          · exact h
          · exact absurd h het
        subst he0
        rw [alGet_edges_foldl_setW_untouched t _ dnode (keyOf dnode e) ?hu]
        · exact alGet_alSet_self _ _ _
        case hu =>
          intro x hx hk
          rcases (keyOf_eq_iff _ _ _ _).1 hk with ⟨_, h2⟩ | ⟨h1, _⟩
          · exact het (h2 ▸ hx)
          · exact hd e (List.mem_cons_self _ _) h1.symm

theorem docEdgesOne_B (G : Graph) (ents : List String)
    (h2 : ∀ e ∈ ents, nonDocName e)
    (key : String × String) (hdk : DocKeyP key) :
    alGet ((pairsOf ents).foldl Graph.bumpPair
      (ents.foldl Graph.bumpEntity G)).edges key = alGet G.edges key := by
  rw [alGet_edges_foldl_bumpPair _ _ _ ?hp]
  · rw [show (ents.foldl Graph.bumpEntity G).edges = G.edges from
      edges_foldl_bumpEntity ents G]
  case hp =>
    intro p hp hk
    rcases pairsOf_mem ents p hp with ⟨hp1, hp2⟩
    rcases hdk with ⟨d, hd⟩ | ⟨d, hd⟩
    · rcases keyOf_comps p.1 p.2 with hc | hc <;> rw [← hk, hc] at hd
      · exact h2 p.1 hp1 d hd
      · exact h2 p.2 hp2 d hd
    · rcases keyOf_comps p.1 p.2 with hc | hc <;> rw [← hk, hc] at hd
      · exact h2 p.2 hp2 d hd
      · exact h2 p.1 hp1 d hd

theorem linkDoc_none (H : Graph) (ents : List String) (meta : Meta)
    (h : docOf meta = none) : H.linkDoc ents meta = H := by
  unfold Graph.linkDoc
  rw [h]

theorem countD_linkDoc (H : Graph) (ents : List String) (meta : Meta)
    (n : String) : (H.linkDoc ents meta).countD n = H.countD n := by
  unfold Graph.linkDoc
  cases hdoc : docOf meta with
  | none => rfl
  | some d =>
      simp only [Graph.countD, Graph.getNode]
      rw [nodes_foldl_setW]
      cases hdn : alGet H.nodes ("doc::" ++ d) with
      | some nd => rfl
      | none =>
          by_cases hn : n = "doc::" ++ d
          · subst hn
            rw [alGet_alSet_self, hdn]
            rfl
          · rw [alGet_alSet_ne _ _ _ _ hn]

theorem alGet_edges_linkDoc_untouched (H : Graph) (ents : List String)
    (meta : Meta) (d : String) (key : String × String)
    (hdoc : docOf meta = some d)
    (h : ∀ e ∈ ents, keyOf ("doc::" ++ d) e ≠ key) :
    alGet (H.linkDoc ents meta).edges key = alGet H.edges key := by
  unfold Graph.linkDoc
  simp only [hdoc]
  rw [alGet_edges_foldl_setW_untouched _ _ _ _ h]
  cases hdn : H.getNode ("doc::" ++ d) <;> rfl

theorem alGet_edges_linkDoc_mem (H : Graph) (ents : List String)
    (meta : Meta) (d : String) (e : String) (hdoc : docOf meta = some d)
    (he : e ∈ ents) (hd : ∀ x ∈ ents, x ≠ "doc::" ++ d) :
    alGet (H.linkDoc ents meta).edges (keyOf ("doc::" ++ d) e) = some 1 := by
  unfold Graph.linkDoc
  simp only [hdoc]
  exact alGet_edges_foldl_setW_mem ents _ _ e he hd

/-- C5 (amended): provided the entity list of each `add_chunk` call is
duplicate-free and no entity name has the `doc::` document-node form,
one call (on a graph satisfying the doc-edge invariant) increments each
listed entity `mention_count` by exactly 1, increments each distinct
unordered entity pair co-mention weight by exactly 1 (creating it at
1), leaves every mention count and edge weight non-decreasing, (re)sets
each document-to-entity edge to weight 1, and preserves the doc-edge
invariant — so the guarantees compose over call sequences from the
empty graph. Without the provisos the claim fails (see the
counterexample): a duplicated entity bumps a pair weight by 2, and a
`doc::`-named entity lets the document link reset a co-mention weight. -/
theorem addChunk_spec (G : Graph) (cid : String) (ents : List String)
    (meta : Meta) (h1 : ents.Nodup) (h2 : ∀ e ∈ ents, nonDocName e)
    (h3 : docEdgesOne G) :
    (∀ e ∈ ents, (add_chunk G cid ents meta).countD e = G.countD e + 1) ∧
    (∀ n, G.countD n ≤ (add_chunk G cid ents meta).countD n) ∧
    (∀ a ∈ ents, ∀ b ∈ ents, a ≠ b →
      (add_chunk G cid ents meta).wD a b = G.wD a b + 1) ∧
    (∀ x y, G.wD x y ≤ (add_chunk G cid ents meta).wD x y) ∧
    (∀ d, docOf meta = some d → ∀ e ∈ ents,
      (add_chunk G cid ents meta).wD ("doc::" ++ d) e = 1) ∧
    docEdgesOne (add_chunk G cid ents meta) := by
  have hadd : add_chunk G cid ents meta =
      ((pairsOf ents).foldl Graph.bumpPair
        (ents.foldl Graph.bumpEntity G)).linkDoc ents meta := rfl
  have hB_count : ∀ n, ((pairsOf ents).foldl Graph.bumpPair
      (ents.foldl Graph.bumpEntity G)).countD n =
      G.countD n + (ents.count n : ℤ) := by
    intro n
    have hnodes : ((pairsOf ents).foldl Graph.bumpPair
        (ents.foldl Graph.bumpEntity G)).countD n =
        (ents.foldl Graph.bumpEntity G).countD n := by
      unfold Graph.countD Graph.getNode
      rw [nodes_foldl_bumpPair]
    rw [hnodes, countD_foldl_bumpEntity]
  have hA_wD : ∀ x y, (ents.foldl Graph.bumpEntity G).wD x y = G.wD x y := by
    intro x y
    unfold Graph.wD Graph.getW
    rw [edges_foldl_bumpEntity]
  have hB_wD : ∀ x y, ((pairsOf ents).foldl Graph.bumpPair
      (ents.foldl Graph.bumpEntity G)).wD x y =
      G.wD x y + ((pairsOf ents).countP
        (fun p => keyOf p.1 p.2 = keyOf x y) : ℤ) := by
    intro x y
    rw [wD_foldl_bumpPair, hA_wD]
  have hB_doc : ∀ key, DocKeyP key →
      alGet ((pairsOf ents).foldl Graph.bumpPair
        (ents.foldl Graph.bumpEntity G)).edges key = alGet G.edges key :=
    fun key hdk => docEdgesOne_B G ents h2 key hdk
  have hdne : ∀ d, ∀ x ∈ ents, x ≠ "doc::" ++ d := fun d x hx => h2 x hx d
  refine ⟨?_, ?_, ?_, ?_, ?_, ?_⟩
  · -- mention counts of listed entities
    intro e he
    rw [hadd, countD_linkDoc, hB_count, List.count_eq_one_of_mem h1 he]
    norm_num
  · -- mention counts never decrease
    intro n
    rw [hadd, countD_linkDoc, hB_count]
    exact le_add_of_nonneg_right (Int.natCast_nonneg _)
  · -- distinct co-mentioned pairs gain exactly 1
    intro a ha b hb hne
    cases hdoc : docOf meta with
    | none =>
        rw [hadd, linkDoc_none _ _ _ hdoc, hB_wD,
          countP_pairsOf_one ents h1 a b ha hb hne]
        norm_num
    | some d =>
        have huntouched : (((pairsOf ents).foldl Graph.bumpPair
            (ents.foldl Graph.bumpEntity G)).linkDoc ents meta).wD a b =
            ((pairsOf ents).foldl Graph.bumpPair
              (ents.foldl Graph.bumpEntity G)).wD a b := by
          unfold Graph.wD Graph.getW
          rw [alGet_edges_linkDoc_untouched _ _ _ d _ hdoc ?hne]
          case hne =>
            intro e hee hk
            rcases (keyOf_eq_iff _ _ _ _).1 hk with ⟨hh, _⟩ | ⟨hh, _⟩
            · exact h2 a ha d hh.symm
            · exact h2 b hb d hh.symm
        rw [hadd, huntouched, hB_wD,
          countP_pairsOf_one ents h1 a b ha hb hne]
        norm_num
  · -- edge weights never decrease
    intro x y
    cases hdoc : docOf meta with
    | none =>
        rw [hadd, linkDoc_none _ _ _ hdoc, hB_wD]
        exact le_add_of_nonneg_right (Int.natCast_nonneg _)
    | some d =>
        by_cases hex : ∃ e ∈ ents, keyOf ("doc::" ++ d) e = keyOf x y
        · rcases hex with ⟨e, he, hk⟩
          have hone : (add_chunk G cid ents meta).wD x y = 1 := by
            rw [hadd]
            unfold Graph.wD Graph.getW
            rw [← hk, alGet_edges_linkDoc_mem _ _ _ d e hdoc he (hdne d)]
            rfl
          have hdk : DocKeyP (keyOf x y) := by
            rw [← hk]
            rcases keyOf_comps ("doc::" ++ d) e with hc | hc <;> rw [hc]
            · exact Or.inl ⟨d, rfl⟩
            · exact Or.inr ⟨d, rfl⟩
          rw [hone]
          unfold Graph.wD Graph.getW
          cases hw : alGet G.edges (keyOf x y) with
          | none => simp
          | some w =>
              have := h3 _ _ hw hdk
              simp [this]
        · have huntouched : (add_chunk G cid ents meta).wD x y =
              ((pairsOf ents).foldl Graph.bumpPair
                (ents.foldl Graph.bumpEntity G)).wD x y := by
            rw [hadd]
            unfold Graph.wD Graph.getW
            rw [alGet_edges_linkDoc_untouched _ _ _ d _ hdoc
              (fun e hee hk => hex ⟨e, hee, hk⟩)]
          rw [huntouched, hB_wD]
          exact le_add_of_nonneg_right (Int.natCast_nonneg _)
  · -- document-to-entity edges sit at weight 1
    intro d hdoc e he
    rw [hadd]
    unfold Graph.wD Graph.getW
    rw [alGet_edges_linkDoc_mem _ _ _ d e hdoc he (hdne d)]
    rfl
  · -- the doc-edge invariant is preserved
    intro p w hw hdk
    rw [hadd] at hw
    cases hdoc : docOf meta with
    | none =>
        rw [linkDoc_none _ _ _ hdoc] at hw
        rw [hB_doc p hdk] at hw
        exact h3 p w hw hdk
    | some d =>
        by_cases hex : ∃ e ∈ ents, keyOf ("doc::" ++ d) e = p
        · rcases hex with ⟨e, he, hk⟩
          rw [← hk, alGet_edges_linkDoc_mem _ _ _ d e hdoc he (hdne d)] at hw
          exact (Option.some.inj hw).symm
        · rw [alGet_edges_linkDoc_untouched _ _ _ d _ hdoc
            (fun e hee hk => hex ⟨e, hee, hk⟩), hB_doc p hdk] at hw
          exact h3 p w hw hdk

theorem nonDoc_short (e : String) (hlen : e.length < 5) : nonDocName e := by
  intro d hcontra
  have h := congrArg String.length hcontra
  rw [String.length_append] at h
  have h5 : ("doc::" : String).length = 5 := rfl
  omega

/-- C5 witness: `addChunk_spec` on the empty graph with entities
`["A", "B"]` and document `d` — the co-mention edge weight for the pair
rises by exactly 1. -/
theorem addChunk_spec_witness :
    (add_chunk graphEmpty "c" ["A", "B"] [("doc_id", MVal.s "d")]).wD "A" "B" =
      graphEmpty.wD "A" "B" + 1 := by
  have h2 : ∀ e ∈ ["A", "B"], nonDocName e := by
    intro e he
    rcases List.mem_cons.1 he with rfl | he2
    · exact nonDoc_short _ (by decide)
    · rcases List.mem_cons.1 he2 with rfl | h
      · exact nonDoc_short _ (by decide)
      · simp at h
  have h3 : docEdgesOne graphEmpty := by
    intro p w hw hdk
    simp [graphEmpty, alGet] at hw
  exact (addChunk_spec graphEmpty "c" ["A", "B"] [("doc_id", MVal.s "d")]
    (by decide) h2 h3).2.2.1 "A" (by decide) "B" (by decide) (by decide)

/-- C5 counterexample: (a) a chunk listing an entity twice
(`["A", "A", "B"]`) bumps the co-mention weight of the *single* distinct
pair `{A, B}` by 2, not 1; (b) an entity literally named `doc::d`
collides with the document node of `doc_id = d`, and the second
`add_chunk` call leaves the co-mention edge `{X, doc::d}` at weight 1
where the claim requires 2 — the `add_edge(dnode, e, w=1)` document link
resets it, so the weight even decreased mid-call from 2 to 1. -/
theorem addChunk_weight_cex :
    (add_chunk graphEmpty "c" ["A", "A", "B"] []).wD "A" "B" = 2 ∧
    (add_chunk (add_chunk graphEmpty "c1" ["X", "doc::d"] [("doc_id", MVal.s "d")])
        "c2" ["X", "doc::d"] [("doc_id", MVal.s "d")]).wD "X" "doc::d" = 1 := by
  have h2 : ("A" : String) ≤ "B" := by
    rw [String.le_iff_toList_le]
    decide
  have h3 : ("X" : String) ≤ "doc::d" := by
    rw [String.le_iff_toList_le]
    decide
  have h4 : ¬ (("doc::d" : String) ≤ "X") := by
    rw [String.le_iff_toList_le]
    decide
  constructor <;>
    simp +decide [add_chunk, Graph.bumpEntity, Graph.bumpPair, Graph.setW,
      Graph.linkDoc, Graph.wD, Graph.getW, Graph.getNode, Graph.countD, pairsOf,
      keyOf, docOf, metaStr, alGet, alSet, graphEmpty, h2, h3, h4]
